import Mathlib

/-!
Verification of the Rustastic ChatClient protocol engine against its
natural-language specification.  The Rust sources are shallowly embedded:
`HashMap`s become association lists, `HashSet`s become duplicate-free lists,
channels become lists of emitted send events, and panicking operations
(`unwrap`, out-of-bounds indexing, `gen_range` on an empty range) become
explicit `Except` error outcomes.  Machine integers (`u64`, `u8`) are
modelled as `Nat`; none of the embedded code relies on wrap-around.
-/

namespace RustasticChat

/-- Role of a node in the network (wg_2024 `NodeType`). -/
inductive NodeType where
  | Client
  | Drone
  | Server
deriving DecidableEq

/-- wg_2024 `Fragment`: a bounded slice of a serialized message. -/
structure Fragment where
  fragment_index : Nat
  total_n_fragments : Nat
  data : List Nat
deriving DecidableEq

/-- wg_2024 `NackType`. -/
inductive NackType where
  | ErrorInRouting (node : Nat)
  | DestinationIsDrone
  | Dropped
  | UnexpectedRecipient (node : Nat)
deriving DecidableEq

/-- wg_2024 `SourceRoutingHeader`: ordered hop list plus current index. -/
structure SourceRoutingHeader where
  hops : List Nat
  hop_index : Nat
deriving DecidableEq

/-- wg_2024 `FloodRequest`. -/
structure FloodRequest where
  flood_id : Nat
  initiator_id : Nat
  path_trace : List (Nat × NodeType)
deriving DecidableEq

/-- wg_2024 `FloodResponse`. -/
structure FloodResponse where
  flood_id : Nat
  path_trace : List (Nat × NodeType)
deriving DecidableEq

/-- wg_2024 `PacketType`: the tagged union of the five wire packet kinds. -/
inductive PacketType where
  | msgFragment (fragment : Fragment)
  | ack (fragment_index : Nat)
  | nack (fragment_index : Nat) (nack_type : NackType)
  | floodRequest (fr : FloodRequest)
  | floodResponse (fr : FloodResponse)
deriving DecidableEq

/-- wg_2024 `Packet`. -/
structure Packet where
  routing_header : SourceRoutingHeader
  session_id : Nat
  pack_type : PacketType
deriving DecidableEq

/-- Association-list lookup, modelling `HashMap::get`. -/
def lookupKV {α β : Type} [DecidableEq α] (k : α) : List (α × β) → Option β
  | [] => none
  | (a, b) :: rest => if a = k then some b else lookupKV k rest

/-- Association-list key removal, modelling `HashMap::remove`. -/
def eraseKV {α β : Type} [DecidableEq α] (k : α) (m : List (α × β)) : List (α × β) :=
  m.filter (fun e => decide (e.1 ≠ k))

/-- Association-list overwrite, modelling `HashMap::insert`. -/
def insertKV {α β : Type} [DecidableEq α] (k : α) (v : β) (m : List (α × β)) : List (α × β) :=
  (k, v) :: eraseKV k m

/-- Does the packet carry a `MsgFragment` payload? -/
def PacketType.isMsgFragment : PacketType → Bool
  | PacketType.msgFragment _ => true
  | _ => false

/-- `packet_cache.rs` `PacketCache`: pending fragments keyed by
(session_id, fragment_index), each entry holding the last-sent packet and a
request counter. -/
structure PacketCache where
  cache : List ((Nat × Nat) × (Packet × Nat))
deriving DecidableEq

/-- `PacketCache::new`. -/
def PacketCache.new : PacketCache := ⟨[]⟩

/-- `PacketCache::insert`: records the (session_id, fragment_index) entry with
counter 0 when the packet is a `MsgFragment`; otherwise only logs an error and
leaves the cache untouched. -/
def PacketCache.insert (c : PacketCache) (packet : Packet) : PacketCache :=
  match packet.pack_type with
  | PacketType.msgFragment fragment =>
      ⟨insertKV (packet.session_id, fragment.fragment_index) (packet, 0) c.cache⟩
  | _ => c

/-- `PacketCache::get`: returns the entry after incrementing its counter in
place (the returned pair is the updated stored entry). -/
def PacketCache.get (c : PacketCache) (session_id fragment_index : Nat) :
    PacketCache × Option (Packet × Nat) :=
  match lookupKV (session_id, fragment_index) c.cache with
  | some (packet, counter) =>
      (⟨insertKV (session_id, fragment_index) (packet, counter + 1) c.cache⟩,
        some (packet, counter + 1))
  | none => (c, none)

/-- `PacketCache::remove`: drops the entry, reporting whether it existed. -/
def PacketCache.remove (c : PacketCache) (session_id fragment_index : Nat) :
    PacketCache × Bool :=
  match lookupKV (session_id, fragment_index) c.cache with
  | some _ => (⟨eraseKV (session_id, fragment_index) c.cache⟩, true)
  | none => (c, false)

/-- `PacketCache::remove_and_get`: atomically removes and returns the entry. -/
def PacketCache.remove_and_get (c : PacketCache) (session_id fragment_index : Nat) :
    PacketCache × Option (Packet × Nat) :=
  match lookupKV (session_id, fragment_index) c.cache with
  | some v => (⟨eraseKV (session_id, fragment_index) c.cache⟩, some v)
  | none => (c, none)

/-- `network_structure.rs` `NetworkNode`: a node of the discovered topology. -/
structure NetworkNode where
  id : Nat
  node_type : NodeType
  neighbors : List Nat
deriving DecidableEq

/-- `network_structure.rs` `NetworkTopology`: map from node ids to nodes. -/
structure NetworkTopology where
  nodes : List (Nat × NetworkNode)
deriving DecidableEq

/-- `HashSet::insert` on a duplicate-free neighbor list. -/
def insertNbr (l : List Nat) (x : Nat) : List Nat := if x ∈ l then l else l ++ [x]

/-- `HashMap::entry(id).or_insert_with(...)`: keep an existing node, otherwise
add a fresh one with the given role and no neighbors. -/
def ensureNode (nodes : List (Nat × NetworkNode)) (node_id : Nat) (node_type : NodeType) :
    List (Nat × NetworkNode) :=
  match lookupKV node_id nodes with
  | some _ => nodes
  | none => nodes ++ [(node_id, ⟨node_id, node_type, []⟩)]

/-- In-place update of the node stored under `id` (no-op when absent),
modelling `HashMap::get_mut`. -/
def updateNode (nodes : List (Nat × NetworkNode)) (id : Nat) (f : NetworkNode → NetworkNode) :
    List (Nat × NetworkNode) :=
  nodes.map (fun e => if e.1 = id then (e.1, f e.2) else e)

/-- Add `nbr` to the neighbor set of node `id` (no-op when `id` is absent). -/
def addNeighbor (nodes : List (Nat × NetworkNode)) (id nbr : Nat) : List (Nat × NetworkNode) :=
  updateNode nodes id (fun n => { n with neighbors := insertNbr n.neighbors nbr })

/-- Loop body of `NetworkTopology::process_path_trace`, carrying the previous
trace entry: ensure the current node exists, then (for i > 0) insert the
previous node into its neighbors and itself into the previous node's
neighbors. -/
def processTraceAux (nodes : List (Nat × NetworkNode)) (prev : Option Nat) :
    List (Nat × NodeType) → List (Nat × NetworkNode)
  | [] => nodes
  | (node_id, node_type) :: rest =>
      let nodes1 := ensureNode nodes node_id node_type
      let nodes2 :=
        match prev with
        | none => nodes1
        | some p => addNeighbor (addNeighbor nodes1 node_id p) p node_id
      processTraceAux nodes2 (some node_id) rest

/-- `NetworkTopology::process_path_trace` (the `flood_id` argument is unused,
as in the source). -/
def NetworkTopology.process_path_trace (t : NetworkTopology) (flood_id : Nat)
    (path_trace : List (Nat × NodeType)) : NetworkTopology :=
  ⟨processTraceAux t.nodes none path_trace⟩

/-- Neighbor list of a node id (empty when the node is unknown). -/
def neighborsOf (nodes : List (Nat × NetworkNode)) (a : Nat) : List Nat :=
  match lookupKV a nodes with
  | some n => n.neighbors
  | none => []

/-- Is the node id present in the topology map? -/
def containsNode (nodes : List (Nat × NetworkNode)) (a : Nat) : Bool :=
  (lookupKV a nodes).isSome

/-- Stored role of a node id. -/
def getRole (nodes : List (Nat × NetworkNode)) (a : Nat) : Option NodeType :=
  (lookupKV a nodes).map NetworkNode.node_type

/-- Every recorded edge is symmetric. -/
def SymmetricN (nodes : List (Nat × NetworkNode)) : Prop :=
  ∀ a b, b ∈ neighborsOf nodes a → a ∈ neighborsOf nodes b

/-- Symmetry of a whole topology. -/
def NetworkTopology.Symm (t : NetworkTopology) : Prop := SymmetricN t.nodes

/-- `NetworkTopology::dfs`: exhaustive simple-path search.  The Rust recursion
terminates because the visited set grows strictly; here an explicit fuel
argument plays that role, with provably sufficient fuel supplied by
`find_paths_to`. -/
def dfs (t : NetworkTopology) (destination : Nat) :
    Nat → Nat → List Nat → List Nat → List (List Nat)
  | fuel, current, visited, current_path =>
    if current = destination then [current_path]
    else
      match fuel with
      | 0 => []
      | fuel' + 1 =>
        match lookupKV current t.nodes with
        | none => []
        | some node =>
            (node.neighbors.map (fun neighbor =>
              if neighbor ∈ current :: visited then []
              else dfs t destination fuel' neighbor (current :: visited)
                (current_path ++ [neighbor]))).flatten

/-- `NetworkTopology::find_paths_to`. -/
def NetworkTopology.find_paths_to (t : NetworkTopology) (current_id destination_id : Nat) :
    List (List Nat) :=
  dfs t destination_id (t.nodes.length + 1) current_id [] [current_id]

/-- Specification-side adjacency: `b` is a stored neighbor of `a`. -/
def adjacent (t : NetworkTopology) (a b : Nat) : Prop :=
  ∃ n, lookupKV a t.nodes = some n ∧ b ∈ n.neighbors

/-- Specification-side simple path from `src` to `dst`: starts at `src`, ends
at `dst`, follows recorded adjacency, and repeats no node. -/
def IsSimplePath (t : NetworkTopology) (src dst : Nat) (p : List Nat) : Prop :=
  p.head? = some src ∧ p.getLast? = some dst ∧ List.Chain' (adjacent t) p ∧ p.Nodup

/-- Characterisation of the suffixes the DFS can append to its accumulated
path: either it already stands at the destination, or it steps to an
unvisited neighbor and continues. -/
inductive DfsSuffix (t : NetworkTopology) (dst : Nat) : Nat → List Nat → List Nat → Prop where
  | done : ∀ visited, DfsSuffix t dst dst visited []
  | step : ∀ current visited neighbor rest node,
      current ≠ dst →
      lookupKV current t.nodes = some node →
      neighbor ∈ node.neighbors →
      neighbor ∉ current :: visited →
      DfsSuffix t dst neighbor (current :: visited) rest →
      DfsSuffix t dst current visited (neighbor :: rest)

/-- Set of node ids that own an entry in the topology map. -/
def keyFinset (t : NetworkTopology) : Finset Nat := (t.nodes.map Prod.fst).toFinset

/-- Send events emitted while handling a flood request in `chat_client.rs`:
a forwarded `FloodRequest`, a `FloodResponse` on a neighbor channel, or a
response diverted to the simulation controller when the previous hop has no
channel. -/
inductive FloodSend where
  | request (dest flood_id initiator : Nat) (trace : List (Nat × NodeType))
  | response (dest flood_id : Nat) (trace : List (Nat × NodeType))
  | shortcutResponse (flood_id : Nat) (trace : List (Nat × NodeType))
deriving DecidableEq

/-- Flooding-relevant state of `chat_client.rs` `ChatClient`: own id, the key
set of `packet_send`, and the `flood_id_received` set. -/
structure FloodState where
  id : Nat
  packet_send : List Nat
  flood_id_received : List (Nat × Nat)
deriving DecidableEq

/-- `ChatClient::send_flood_response`: send to the destination neighbor when a
channel exists, otherwise divert to the simulation controller. -/
def send_flood_response (s : FloodState) (dest_node flood_id : Nat)
    (trace : List (Nat × NodeType)) : List FloodSend :=
  if dest_node ∈ s.packet_send then [FloodSend.response dest_node flood_id trace]
  else [FloodSend.shortcutResponse flood_id trace]

/-- `ChatClient::handle_flood_request` (chat_client.rs): append self to the
trace; answer directly when the flood was already seen or when the node has a
single neighbor; otherwise forward to every neighbor except the previous
hop. -/
def handle_flood_request (s : FloodState) (fr : FloodRequest) : List FloodSend :=
  match fr.path_trace.getLast? with
  | none => []
  | some prev_entry =>
      let prev_node := prev_entry.1
      let trace2 := fr.path_trace ++ [(s.id, NodeType.Client)]
      if (fr.flood_id, fr.initiator_id) ∈ s.flood_id_received then
        send_flood_response s prev_node fr.flood_id trace2
      else if s.packet_send.length = 1 then
        send_flood_response s prev_node fr.flood_id trace2
      else
        (s.packet_send.filter (fun nb => decide (nb ≠ prev_node))).map
          (fun nb => FloodSend.request nb fr.flood_id fr.initiator_id trace2)

/-- `ChatClient::handle_packet` on a `FloodRequest` (chat_client.rs lines
184-189): run `handle_flood_request`, then mark (flood_id, initiator) as
seen. -/
def handlePacketFloodRequest (s : FloodState) (fr : FloodRequest) :
    FloodState × List FloodSend :=
  let sends := handle_flood_request s fr
  ({ s with
      flood_id_received :=
        if (fr.flood_id, fr.initiator_id) ∈ s.flood_id_received then s.flood_id_received
        else s.flood_id_received ++ [(fr.flood_id, fr.initiator_id)] },
    sends)

/-- Side effects of the NACK recovery handlers: a packet resent on a neighbor
channel, a pending-cache insertion, a forced network re-flood, and the router
notifications made on entry to the branches. -/
inductive RecoveryEvent where
  | resend (p : Packet)
  | cacheInsert (p : Packet)
  | flood
  | droneCrashed (node : Nat)
  | droppedFragment (node : Nat)
deriving DecidableEq

/-- Dropped branch of `process_nack` in `process_packet/mod.rs` (lines
162-221).  The cache lookup result, the router's header list and the value
drawn by `gen_range` are the branch's inputs; `gen_range(0..len)` on an empty
range and `destination().unwrap()` on an empty hop list are panics. -/
def process_nack_dropped_pp (lookupResult : Option (Packet × Nat))
    (routing_headers : List SourceRoutingHeader) (random_index : Nat) :
    Except String (List RecoveryEvent) :=
  match lookupResult with
  | none => Except.ok []
  | some (dropped_packet, number_of_request) =>
      if 3 ≤ number_of_request then
        match dropped_packet.routing_header.hops.getLast? with
        | none => Except.error "destination unwrap on empty hops"
        | some _dest =>
            if routing_headers.length = 0 then
              Except.error "gen_range called with empty range"
            else
              match routing_headers.get? random_index with
              | none => Except.error "index out of bounds"
              | some h =>
                  let packet_to_resend : Packet := { dropped_packet with routing_header := h }
                  Except.ok [RecoveryEvent.cacheInsert packet_to_resend,
                    RecoveryEvent.resend packet_to_resend]
      else
        Except.ok [RecoveryEvent.cacheInsert dropped_packet,
          RecoveryEvent.resend dropped_packet]

/-- ErrorInRouting branch of `process_nack` in `handle_packet/mod.rs` (lines
388-432), with the cache take result and the router's reroute outcome as
inputs. -/
def process_nack_error_in_routing_hp (unreachable_node : Nat)
    (takeResult : Option Packet) (new_header : Option SourceRoutingHeader) :
    Except String (List RecoveryEvent) :=
  match takeResult with
  | none => Except.ok [RecoveryEvent.droppedFragment unreachable_node]
  | some incorrect_packet =>
      match incorrect_packet.routing_header.hops.getLast? with
      | none => Except.error "destination unwrap on empty hops"
      | some _dest =>
          Except.ok (RecoveryEvent.droppedFragment unreachable_node ::
            RecoveryEvent.droneCrashed unreachable_node ::
            match new_header with
            | some h =>
                let np : Packet := { incorrect_packet with routing_header := h }
                [RecoveryEvent.cacheInsert np, RecoveryEvent.resend np]
            | none => [RecoveryEvent.resend incorrect_packet])

/-- Dropped branch of `process_nack` in `handle_packet/mod.rs` (lines
442-507): re-flood once the counter exceeds 30, then resend with a freshly
computed header, falling back to the stored header when the router fails. -/
def process_nack_dropped_hp (nack_src : Nat) (getResult : Option (Packet × Nat))
    (new_header : Option SourceRoutingHeader) : Except String (List RecoveryEvent) :=
  match getResult with
  | none => Except.ok [RecoveryEvent.droppedFragment nack_src]
  | some (dropped_packet, requests) =>
      match dropped_packet.routing_header.hops.getLast? with
      | none => Except.error "destination unwrap on empty hops"
      | some _dest =>
          Except.ok (RecoveryEvent.droppedFragment nack_src ::
            ((if 30 < requests then [RecoveryEvent.flood] else []) ++
              match new_header with
              | some h =>
                  let pr : Packet := { dropped_packet with routing_header := h }
                  [RecoveryEvent.cacheInsert pr, RecoveryEvent.resend pr]
              | none => [RecoveryEvent.resend dropped_packet]))

/-- UnexpectedRecipient branch of `process_nack` in `handle_packet/mod.rs`
(lines 508-541): when the router yields no new header there is no else branch,
so nothing is resent and nothing is reported. -/
def process_nack_unexpected_hp (problematic_node : Nat)
    (takeResult : Option Packet) (new_header : Option SourceRoutingHeader) :
    Except String (List RecoveryEvent) :=
  match takeResult with
  | none => Except.ok [RecoveryEvent.droppedFragment problematic_node]
  | some incorrect_packet =>
      match incorrect_packet.routing_header.hops.getLast? with
      | none => Except.error "destination unwrap on empty hops"
      | some _dest =>
          Except.ok (RecoveryEvent.droppedFragment problematic_node ::
            match new_header with
            | some h =>
                let np : Packet := { incorrect_packet with routing_header := h }
                [RecoveryEvent.cacheInsert np, RecoveryEvent.resend np]
            | none => [])

/-- Modelled from the spec: `NetworkTopology::clear` is called by
`chat_client.rs` but absent from `network_structure.rs`; section 3 of the
spec defines it as wiping the graph entirely to force full re-discovery. -/
def NetworkTopology.clear (_t : NetworkTopology) : NetworkTopology := ⟨[]⟩

/-- ErrorInRouting branch of `process_nack` in `chat_client.rs` (lines
850-925): take the pending packet, pick the first path avoiding the
unreachable node; with none left, clear the topology, start a flood (which
only sends requests and cannot update the graph before the handler returns)
and index `new_paths[0]`, which panics because the freshly cleared graph
yields no paths. -/
def process_nack_error_in_routing_cc (cid : Nat) (topo : NetworkTopology)
    (cache : PacketCache) (nack_session_id nack_fragment_index unreachable_node : Nat) :
    Except String (PacketCache × NetworkTopology × List RecoveryEvent) :=
  match cache.remove_and_get nack_session_id nack_fragment_index with
  | (cache1, none) => Except.ok (cache1, topo, [])
  | (cache1, some (incorrect_packet, _)) =>
      match incorrect_packet.routing_header.hops.getLast? with
      | none => Except.error "destination unwrap on empty hops"
      | some dest =>
          let paths_to_dest := topo.find_paths_to cid dest
          match paths_to_dest.find? (fun path => decide (unreachable_node ∉ path)) with
          | some path =>
              let new_packet : Packet := { incorrect_packet with routing_header := ⟨path, 0⟩ }
              Except.ok (cache1.insert new_packet, topo, [RecoveryEvent.resend new_packet])
          | none =>
              let topo2 := topo.clear
              let new_paths := topo2.find_paths_to cid dest
              match new_paths.get? 0 with
              | none => Except.error "index out of bounds: new_paths[0] on empty Vec"
              | some path0 =>
                  let new_packet : Packet :=
                    { incorrect_packet with routing_header := ⟨path0, 0⟩ }
                  Except.ok (cache1.insert new_packet, topo2,
                    [RecoveryEvent.flood, RecoveryEvent.resend new_packet])

/-- wg_2024 fragment payload capacity (`FRAGMENT_DSIZE`). -/
def FRAGMENT_DSIZE : Nat := 128

/-- Number of fixed-capacity chunks needed for a payload. -/
def numChunks (data : List Nat) : Nat :=
  (data.length + FRAGMENT_DSIZE - 1) / FRAGMENT_DSIZE

/-- The i-th fixed-capacity chunk of a payload. -/
def chunk (data : List Nat) (i : Nat) : List Nat :=
  (data.drop (FRAGMENT_DSIZE * i)).take FRAGMENT_DSIZE

/-- Modelled from the spec: `fragment(message)` lives in the external
`assembler` crate (the in-repo assembler.rs holds only a bare struct, no
methods).  Spec section 4.3: serialize the payload and slice it into
fixed-capacity fragments with ascending fragment_index and a total count;
serialization is modelled as the identity on the payload byte list. -/
def fragmentData (data : List Nat) : List Fragment :=
  (List.range (numChunks data)).map (fun i => ⟨i, numChunks data, chunk data i⟩)

/-- Message surfaced to the application layer by reassembly: the transport
key (session_id, source) plus the reassembled payload. -/
structure AsmMessage where
  session_id : Nat
  source : Nat
  data : List Nat
deriving DecidableEq

/-- Reassembly buffers keyed by (session_id, source). -/
structure AssemblerState where
  fragment_buffer : List ((Nat × Nat) × List Fragment)
deriving DecidableEq

/-- Payload reassembly in fragment-index order. -/
def assembleContent (total : Nat) (buf : List Fragment) : List Nat :=
  ((List.range total).map (fun i =>
    match buf.find? (fun f => f.fragment_index == i) with
    | some f => f.data
    | none => [])).flatten

/-- Modelled from the spec: `on_fragment_received` lives in the external
`assembler` crate.  Spec section 4.3: insert the fragment into the buffer
keyed by (session_id, source); when all indices 0..total-1 are present,
remove the buffer and return the assembled Message, else return nothing. -/
def on_fragment_received (st : AssemblerState) (frag : Fragment)
    (session_id source : Nat) : AssemblerState × Option AsmMessage :=
  let key := (session_id, source)
  let buf := (lookupKV key st.fragment_buffer).getD []
  let buf2 := buf ++ [frag]
  let total := frag.total_n_fragments
  if (List.range total).all (fun i => buf2.any (fun f => f.fragment_index == i)) then
    (⟨eraseKV key st.fragment_buffer⟩, some ⟨session_id, source, assembleContent total buf2⟩)
  else
    (⟨insertKV key buf2 st.fragment_buffer⟩, none)

/-- Feed a list of fragments through `on_fragment_received`, collecting the
emitted messages in arrival order. -/
def feedAll (session_id source : Nat) :
    AssemblerState → List Fragment → AssemblerState × List AsmMessage
  | st, [] => (st, [])
  | st, f :: rest =>
      let r1 := on_fragment_received st f session_id source
      let r2 := feedAll session_id source r1.1 rest
      (r2.1, (match r1.2 with | some m => [m] | none => []) ++ r2.2)

/-- The buffer state holding exactly the fed fragments under one key (the
state shape maintained while feeding one fragment set). -/
def bufFor (session_id source : Nat) (fed : List Fragment) : AssemblerState :=
  ⟨if fed = [] then [] else [((session_id, source), fed)]⟩

/-- Concrete fragment used in witnesses and counterexamples. -/
def exFragment : Fragment := ⟨0, 1, [7]⟩

/-- Concrete `MsgFragment` packet with session_id 1, fragment_index 0. -/
def exPacket : Packet :=
  ⟨⟨[1, 2, 3], 1⟩, 1, PacketType.msgFragment exFragment⟩

/-- Concrete `Ack` packet (not a fragment). -/
def exAckPacket : Packet := ⟨⟨[3, 2, 1], 1⟩, 1, PacketType.ack 0⟩

end RustasticChat

namespace RustasticChat

/-- `lookupKV` after `insertKV` at the same key yields the new value. -/
theorem lookupKV_insertKV_self {α β : Type} [DecidableEq α] (k : α) (v : β)
    (m : List (α × β)) : lookupKV k (insertKV k v m) = some v := by
  simp [insertKV, lookupKV]

/-- C10: `PacketCache::insert` with a packet that is not a `MsgFragment` leaves
the cache completely unchanged: no entry is added, removed or modified. -/
theorem cache_insert_non_fragment_noop (c : PacketCache) (p : Packet)
    (h : p.pack_type.isMsgFragment = false) : (c.insert p).cache = c.cache := by
  cases hp : p.pack_type <;>
    simp [PacketCache.insert, hp, PacketType.isMsgFragment] at h ⊢

/-- Witness for `cache_insert_non_fragment_noop` at a concrete Ack packet. -/
theorem cache_insert_non_fragment_noop_witness :
    exAckPacket.pack_type.isMsgFragment = false ∧
      ((PacketCache.new.insert exAckPacket).cache = PacketCache.new.cache) :=
  ⟨by decide, cache_insert_non_fragment_noop PacketCache.new exAckPacket (by decide)⟩

/-- C2 counterexample: insert a fragment packet, query it twice (counter
climbs to 2), re-insert the packet for the same key as a reroute does; the
stored counter is reset to 0, not preserved at 2, so a later `get` observes 1
instead of the cumulative 3. -/
theorem cache_reinsert_resets_counter_example :
    (let c1 := PacketCache.new.insert exPacket
     let c2 := (c1.get 1 0).1
     let c3 := (c2.get 1 0).1
     let c4 := c3.insert exPacket
     lookupKV (1, 0) c3.cache = some (exPacket, 2) ∧
       lookupKV (1, 0) c4.cache = some (exPacket, 0) ∧
       (c4.get 1 0).2 = some (exPacket, 1)) := by
  constructor
  · rfl
  · constructor <;> rfl

/-- C2 amended: `PacketCache::insert` stores counter 0 unconditionally, so a
reroute-driven re-insertion resets the accumulated retry counter instead of
preserving it. -/
theorem cache_insert_counter_zero (c : PacketCache) (p : Packet) (frag : Fragment)
    (h : p.pack_type = PacketType.msgFragment frag) :
    lookupKV (p.session_id, frag.fragment_index) (c.insert p).cache = some (p, 0) := by
  simp only [PacketCache.insert, h]
  exact lookupKV_insertKV_self _ _ _

/-- Witness for `cache_insert_counter_zero` on a concrete packet and a
non-trivial pre-existing cache. -/
theorem cache_insert_counter_zero_witness :
    exPacket.pack_type = PacketType.msgFragment exFragment ∧
      lookupKV (1, 0) (((PacketCache.new.insert exPacket).get 1 0).1.insert exPacket).cache =
        some (exPacket, 0) :=
  ⟨by decide,
    cache_insert_counter_zero ((PacketCache.new.insert exPacket).get 1 0).1 exPacket
      exFragment (by decide)⟩

/-- Lookup distributes over list append, first list winning. -/
theorem lookupKV_append {α β : Type} [DecidableEq α] (k : α) (l1 l2 : List (α × β)) :
    lookupKV k (l1 ++ l2) =
      match lookupKV k l1 with
      | some v => some v
      | none => lookupKV k l2 := by
  induction l1 with
  | nil => simp [lookupKV]
  | cons e rest ih =>
      obtain ⟨a, b⟩ := e
      by_cases h : a = k <;> simp [lookupKV, h, ih]

/-- Unfolding lemma for `lookupKV` on a cons cell. -/
theorem lookupKV_cons {α β : Type} [DecidableEq α] (k a : α) (b : β) (rest : List (α × β)) :
    lookupKV k ((a, b) :: rest) = if a = k then some b else lookupKV k rest := rfl

/-- Lookup after `updateNode`: the stored node is transformed exactly at the
updated key. -/
theorem lookupKV_updateNode (nodes : List (Nat × NetworkNode)) (id : Nat)
    (f : NetworkNode → NetworkNode) (a : Nat) :
    lookupKV a (updateNode nodes id f) =
      if a = id then (lookupKV a nodes).map f else lookupKV a nodes := by
  induction nodes with
  | nil => simp [updateNode, lookupKV]
  | cons e rest ih =>
      obtain ⟨k, n⟩ := e
      have hu : updateNode ((k, n) :: rest) id f =
          (if k = id then (k, f n) else (k, n)) :: updateNode rest id f := rfl
      rw [hu]
      by_cases hk : k = id
      · rw [if_pos hk]
        simp only [lookupKV_cons, ih]
        split_ifs <;> simp_all
      · rw [if_neg hk]
        simp only [lookupKV_cons, ih]
        split_ifs <;> simp_all

/-- `ensureNode` never changes any neighbor list. -/
theorem neighborsOf_ensureNode (nodes : List (Nat × NetworkNode)) (id : Nat)
    (ty : NodeType) (a : Nat) :
    neighborsOf (ensureNode nodes id ty) a = neighborsOf nodes a := by
  unfold ensureNode
  cases h : lookupKV id nodes with
  | some n => rfl
  | none =>
      unfold neighborsOf
      rw [lookupKV_append]
      by_cases ha : a = id
      · subst ha
        simp [h, lookupKV]
      · have ha2 : ¬ id = a := fun hh => ha hh.symm
        cases hl : lookupKV a nodes <;> simp [lookupKV, ha2, hl]

/-- `ensureNode` preserves stored roles and adds the new role at `id`. -/
theorem getRole_ensureNode (nodes : List (Nat × NetworkNode)) (id : Nat)
    (ty : NodeType) (a : Nat) :
    getRole (ensureNode nodes id ty) a =
      (getRole nodes a).orElse (fun _ => if a = id then some ty else none) := by
  unfold ensureNode
  cases h : lookupKV id nodes with
  | some n =>
      cases hl : lookupKV a nodes with
      | some m => simp [getRole, hl, Option.orElse]
      | none =>
          by_cases ha : a = id
          · subst ha; rw [hl] at h; cases h
          · simp [getRole, hl, ha, Option.orElse]
  | none =>
      unfold getRole
      rw [lookupKV_append]
      by_cases ha : a = id
      · subst ha
        simp [h, lookupKV, Option.orElse]
      · have ha2 : ¬ id = a := fun hh => ha hh.symm
        cases hl : lookupKV a nodes <;> simp [lookupKV, ha, ha2, hl, Option.orElse]

/-- `addNeighbor` preserves stored roles. -/
theorem getRole_addNeighbor (nodes : List (Nat × NetworkNode)) (id nbr a : Nat) :
    getRole (addNeighbor nodes id nbr) a = getRole nodes a := by
  unfold getRole addNeighbor
  rw [lookupKV_updateNode]
  by_cases ha : a = id
  · cases hl : lookupKV a nodes <;> simp [ha, hl]
  · simp [ha]

/-- `addNeighbor` preserves key presence. -/
theorem containsNode_addNeighbor (nodes : List (Nat × NetworkNode)) (id nbr a : Nat) :
    containsNode (addNeighbor nodes id nbr) a = containsNode nodes a := by
  unfold containsNode addNeighbor
  rw [lookupKV_updateNode]
  by_cases ha : a = id
  · cases hl : lookupKV a nodes <;> simp [ha, hl]
  · simp [ha]

/-- `ensureNode` preserves key presence. -/
theorem containsNode_ensureNode (nodes : List (Nat × NetworkNode)) (id : Nat)
    (ty : NodeType) (a : Nat) (h : containsNode nodes a = true) :
    containsNode (ensureNode nodes id ty) a = true := by
  unfold ensureNode
  cases hid : lookupKV id nodes with
  | some n => exact h
  | none =>
      unfold containsNode at h ⊢
      rw [lookupKV_append]
      cases hl : lookupKV a nodes with
      | some n => simp
      | none => rw [hl] at h; simp at h

/-- After `ensureNode`, the ensured key is present. -/
theorem containsNode_ensureNode_self (nodes : List (Nat × NetworkNode)) (id : Nat)
    (ty : NodeType) : containsNode (ensureNode nodes id ty) id = true := by
  unfold ensureNode
  cases hid : lookupKV id nodes with
  | some n => simp [containsNode, hid]
  | none =>
      unfold containsNode
      rw [lookupKV_append]
      simp [hid, lookupKV]

/-- Unfolding lemma for `processTraceAux` on a cons cell. -/
theorem processTraceAux_cons (nodes : List (Nat × NetworkNode)) (prev : Option Nat)
    (id : Nat) (ty : NodeType) (rest : List (Nat × NodeType)) :
    processTraceAux nodes prev ((id, ty) :: rest) =
      processTraceAux
        (match prev with
          | none => ensureNode nodes id ty
          | some p => addNeighbor (addNeighbor (ensureNode nodes id ty) id p) p id)
        (some id) rest := rfl

/-- Membership in an `insertNbr` result. -/
theorem mem_insertNbr (l : List Nat) (x b : Nat) :
    b ∈ insertNbr l x ↔ b ∈ l ∨ b = x := by
  unfold insertNbr
  by_cases h : x ∈ l
  · simp only [if_pos h]
    constructor
    · exact Or.inl
    · rintro (hb | rfl) <;> assumption
  · simp [if_neg h]

/-- Membership in a neighbor list after `addNeighbor`. -/
theorem mem_neighborsOf_addNeighbor (nodes : List (Nat × NetworkNode)) (x y a b : Nat) :
    b ∈ neighborsOf (addNeighbor nodes x y) a ↔
      b ∈ neighborsOf nodes a ∨ (a = x ∧ b = y ∧ containsNode nodes x = true) := by
  unfold neighborsOf addNeighbor containsNode
  rw [lookupKV_updateNode]
  by_cases ha : a = x
  · subst ha
    cases hl : lookupKV a nodes with
    | some n => simp [hl, mem_insertNbr]
    | none => simp [hl]
  · simp [ha]

/-- Membership in a neighbor list is preserved by the whole trace fold. -/
theorem mem_nbr_processTraceAux (tr : List (Nat × NodeType)) :
    ∀ (nodes : List (Nat × NetworkNode)) (prev : Option Nat) (a b : Nat),
      b ∈ neighborsOf nodes a → b ∈ neighborsOf (processTraceAux nodes prev tr) a := by
  induction tr with
  | nil => intro nodes prev a b h; exact h
  | cons e rest ih =>
      obtain ⟨id, ty⟩ := e
      intro nodes prev a b h
      rw [processTraceAux_cons]
      apply ih
      have h1 : b ∈ neighborsOf (ensureNode nodes id ty) a := by
        rw [neighborsOf_ensureNode]; exact h
      cases prev with
      | none => exact h1
      | some p =>
          rw [mem_neighborsOf_addNeighbor]
          left
          rw [mem_neighborsOf_addNeighbor]
          left
          exact h1

/-- Key presence is preserved by the whole trace fold. -/
theorem containsNode_processTraceAux (tr : List (Nat × NodeType)) :
    ∀ (nodes : List (Nat × NetworkNode)) (prev : Option Nat) (a : Nat),
      containsNode nodes a = true →
      containsNode (processTraceAux nodes prev tr) a = true := by
  induction tr with
  | nil => intro nodes prev a h; exact h
  | cons e rest ih =>
      obtain ⟨id, ty⟩ := e
      intro nodes prev a h
      rw [processTraceAux_cons]
      apply ih
      have h1 : containsNode (ensureNode nodes id ty) a = true :=
        containsNode_ensureNode nodes id ty a h
      cases prev with
      | none => exact h1
      | some p => rw [containsNode_addNeighbor, containsNode_addNeighbor]; exact h1

/-- One fold step keeps the node announced by `prev` present. -/
theorem step_contains (nodes : List (Nat × NetworkNode)) (prev : Option Nat)
    (id : Nat) (ty : NodeType) :
    containsNode
      (match prev with
        | none => ensureNode nodes id ty
        | some p => addNeighbor (addNeighbor (ensureNode nodes id ty) id p) p id) id = true := by
  cases prev with
  | none => exact containsNode_ensureNode_self nodes id ty
  | some p =>
      rw [containsNode_addNeighbor, containsNode_addNeighbor]
      exact containsNode_ensureNode_self nodes id ty

/-- Both directions of every consecutive trace pair are recorded by the fold. -/
theorem pairs_processTraceAux (tr : List (Nat × NodeType)) :
    ∀ (nodes : List (Nat × NetworkNode)) (prev : Option Nat),
      ∀ (i a : Nat) (ta : NodeType) (b : Nat) (tb : NodeType),
        tr.get? i = some (a, ta) → tr.get? (i + 1) = some (b, tb) →
        b ∈ neighborsOf (processTraceAux nodes prev tr) a ∧
          a ∈ neighborsOf (processTraceAux nodes prev tr) b := by
  induction tr with
  | nil => intro nodes prev i a ta b tb h1 h2; simp [List.get?] at h1
  | cons e rest ih =>
      obtain ⟨id, ty⟩ := e
      intro nodes prev i a ta b tb h1 h2
      rw [processTraceAux_cons]
      cases i with
      | zero =>
          have hea : id = a ∧ ty = ta := by
            simp [List.get?] at h1
            exact ⟨h1.1, h1.2⟩
          obtain ⟨rfl, rfl⟩ := hea
          have h2' : rest.get? 0 = some (b, tb) := h2
          cases rest with
          | nil => simp [List.get?] at h2'
          | cons e' rest' =>
              obtain ⟨b', tb'⟩ := e'
              have heb : b' = b ∧ tb' = tb := by
                simp [List.get?] at h2'
                exact ⟨h2'.1, h2'.2⟩
              obtain ⟨rfl, rfl⟩ := heb
              rw [processTraceAux_cons]
              have hcont2 := step_contains nodes prev id ty
              constructor
              · apply mem_nbr_processTraceAux
                rw [mem_neighborsOf_addNeighbor]
                right
                refine ⟨rfl, rfl, ?_⟩
                rw [containsNode_addNeighbor]
                exact containsNode_ensureNode _ _ _ _ hcont2
              · apply mem_nbr_processTraceAux
                rw [mem_neighborsOf_addNeighbor]
                left
                rw [mem_neighborsOf_addNeighbor]
                right
                exact ⟨rfl, rfl, containsNode_ensureNode_self _ _ _⟩
      | succ j =>
          exact ih _ (some id) j a ta b tb h1 h2

/-- Symmetry of the edge relation is preserved by the fold, provided the node
carried in `prev` is present. -/
theorem symm_processTraceAux (tr : List (Nat × NodeType)) :
    ∀ (nodes : List (Nat × NetworkNode)) (prev : Option Nat),
      (∀ p, prev = some p → containsNode nodes p = true) →
      SymmetricN nodes → SymmetricN (processTraceAux nodes prev tr) := by
  induction tr with
  | nil => intro nodes prev hp hs; exact hs
  | cons e rest ih =>
      obtain ⟨id, ty⟩ := e
      intro nodes prev hp hs
      rw [processTraceAux_cons]
      have hs1 : SymmetricN (ensureNode nodes id ty) := by
        intro a b h
        rw [neighborsOf_ensureNode] at h ⊢
        exact hs a b h
      apply ih _ (some id)
      · intro p hp'
        cases hp'
        exact step_contains nodes prev id ty
      · cases prev with
        | none => exact hs1
        | some p =>
            have hpc : containsNode (ensureNode nodes id ty) p = true :=
              containsNode_ensureNode nodes id ty p (hp p rfl)
            intro a b h
            rw [mem_neighborsOf_addNeighbor, mem_neighborsOf_addNeighbor] at h
            rw [mem_neighborsOf_addNeighbor, mem_neighborsOf_addNeighbor]
            rcases h with (h | ⟨rfl, rfl, hc⟩) | ⟨rfl, rfl, hc⟩
            · left; left; exact hs1 a b h
            · right
              refine ⟨rfl, rfl, ?_⟩
              rw [containsNode_addNeighbor]
              exact hpc
            · left; right
              exact ⟨rfl, rfl, containsNode_ensureNode_self _ _ _⟩

/-- C6: processing a flood-response path trace records every consecutive pair
of the trace as an edge in both directions, and the symmetry of every stored
edge is an invariant of `process_path_trace`. -/
theorem process_path_trace_symmetric (t : NetworkTopology) (flood_id : Nat)
    (trace : List (Nat × NodeType)) :
    (∀ (i a : Nat) (ta : NodeType) (b : Nat) (tb : NodeType),
        trace.get? i = some (a, ta) → trace.get? (i + 1) = some (b, tb) →
        b ∈ neighborsOf (t.process_path_trace flood_id trace).nodes a ∧
          a ∈ neighborsOf (t.process_path_trace flood_id trace).nodes b) ∧
      (t.Symm → (t.process_path_trace flood_id trace).Symm) := by
  constructor
  · intro i a ta b tb h1 h2
    exact pairs_processTraceAux trace t.nodes none i a ta b tb h1 h2
  · intro hs
    exact symm_processTraceAux trace t.nodes none (by intro p hp; cases hp) hs

/-- Witness for `process_path_trace_symmetric` on the trace [1, 2, 3] over the
empty topology. -/
theorem process_path_trace_symmetric_witness :
    (2 ∈ neighborsOf ((NetworkTopology.process_path_trace ⟨[]⟩ 0
          [(1, NodeType.Drone), (2, NodeType.Drone), (3, NodeType.Server)]).nodes) 1 ∧
        1 ∈ neighborsOf ((NetworkTopology.process_path_trace ⟨[]⟩ 0
          [(1, NodeType.Drone), (2, NodeType.Drone), (3, NodeType.Server)]).nodes) 2) ∧
      (NetworkTopology.process_path_trace ⟨[]⟩ 0
        [(1, NodeType.Drone), (2, NodeType.Drone), (3, NodeType.Server)]).Symm :=
  ⟨(process_path_trace_symmetric ⟨[]⟩ 0 _).1 0 1 NodeType.Drone 2 NodeType.Drone rfl rfl,
    (process_path_trace_symmetric ⟨[]⟩ 0 _).2
      (by intro a b h; simp [neighborsOf, lookupKV] at h)⟩

/-- C9 counterexample: a node already known as a Drone keeps its old role when
a flood-response trace re-lists it as a Client, so the role carried by the
trace is not upserted. -/
theorem role_not_updated_example :
    getRole ((NetworkTopology.process_path_trace ⟨[(1, ⟨1, NodeType.Drone, []⟩)]⟩ 0
        [(1, NodeType.Client)]).nodes) 1 = some NodeType.Drone ∧
      (NodeType.Drone ≠ NodeType.Client) := by
  constructor
  · rfl
  · decide

/-- C9 amended: after `process_path_trace`, a node's role is its pre-existing
role when it was already known, and otherwise the role attached to its first
occurrence in the trace; `entry(...).or_insert_with` never overwrites. -/
theorem process_path_trace_role (t : NetworkTopology) (flood_id : Nat)
    (trace : List (Nat × NodeType)) (a : Nat) :
    getRole (t.process_path_trace flood_id trace).nodes a =
      (getRole t.nodes a).orElse (fun _ => lookupKV a trace) := by
  unfold NetworkTopology.process_path_trace
  suffices h : ∀ (tr : List (Nat × NodeType)) (nodes : List (Nat × NetworkNode))
      (prev : Option Nat),
      getRole (processTraceAux nodes prev tr) a =
        (getRole nodes a).orElse (fun _ => lookupKV a tr) by
    exact h trace t.nodes none
  intro tr
  induction tr with
  | nil =>
      intro nodes prev
      cases h : getRole nodes a <;> simp [processTraceAux, lookupKV, h, Option.orElse]
  | cons e rest ih =>
      intro nodes prev
      obtain ⟨id, ty⟩ := e
      rw [processTraceAux_cons]
      have hrole2 :
          getRole
            (match prev with
              | none => ensureNode nodes id ty
              | some p => addNeighbor (addNeighbor (ensureNode nodes id ty) id p) p id) a =
            getRole (ensureNode nodes id ty) a := by
        cases prev with
        | none => rfl
        | some p => rw [getRole_addNeighbor, getRole_addNeighbor]
      rw [ih, hrole2, getRole_ensureNode]
      cases hg : getRole nodes a with
      | some r => simp [Option.orElse]
      | none =>
          by_cases ha : a = id
          · subst ha
            simp [Option.orElse, lookupKV]
          · have ha2 : ¬ id = a := fun hh => ha hh.symm
            simp [Option.orElse, ha, ha2, lookupKV]

/-- Nonempty lists have a last element. -/
theorem exists_getLast?_of_ne_nil {α : Type} : ∀ (l : List α), l ≠ [] → ∃ d, l.getLast? = some d := by
  intro l h
  cases l with
  | nil => exact absurd rfl h
  | cons a as =>
      exact ⟨(a :: as).getLast (by simp), List.getLast?_eq_getLast _ (by simp)⟩

/-- C7: a first delivery of an unseen flood request fans out to every neighbor
except the previous hop; delivering the same (flood_id, initiator) again is
answered directly with a FloodResponse to the sender and forwards nothing. -/
theorem flood_dedup_idempotent (s : FloodState) (fr : FloodRequest) (prev : Nat)
    (pt : NodeType)
    (hseen : (fr.flood_id, fr.initiator_id) ∉ s.flood_id_received)
    (hprev : fr.path_trace.getLast? = some (prev, pt))
    (hmem : prev ∈ s.packet_send)
    (hlen : s.packet_send.length ≠ 1) :
    (handlePacketFloodRequest s fr).2 =
      (s.packet_send.filter (fun nb => decide (nb ≠ prev))).map
        (fun nb => FloodSend.request nb fr.flood_id fr.initiator_id
          (fr.path_trace ++ [(s.id, NodeType.Client)])) ∧
    (handlePacketFloodRequest (handlePacketFloodRequest s fr).1 fr).2 =
      [FloodSend.response prev fr.flood_id (fr.path_trace ++ [(s.id, NodeType.Client)])] := by
  constructor
  · simp [handlePacketFloodRequest, handle_flood_request, hprev, hseen, hlen]
  · simp [handlePacketFloodRequest, handle_flood_request, hprev, hseen, hlen,
      send_flood_response, hmem]

/-- Witness for `flood_dedup_idempotent`: node 5 with neighbors [1, 2]
receives flood (7, 9) twice from neighbor 1. -/
theorem flood_dedup_idempotent_witness :
    (handlePacketFloodRequest ⟨5, [1, 2], []⟩
        ⟨7, 9, [(9, NodeType.Client), (1, NodeType.Drone)]⟩).2 =
      (([1, 2].filter (fun nb => decide (nb ≠ 1))).map
        (fun nb => FloodSend.request nb 7 9
          [(9, NodeType.Client), (1, NodeType.Drone), (5, NodeType.Client)])) ∧
    (handlePacketFloodRequest
        (handlePacketFloodRequest ⟨5, [1, 2], []⟩
          ⟨7, 9, [(9, NodeType.Client), (1, NodeType.Drone)]⟩).1
        ⟨7, 9, [(9, NodeType.Client), (1, NodeType.Drone)]⟩).2 =
      [FloodSend.response 1 7 [(9, NodeType.Client), (1, NodeType.Drone), (5, NodeType.Client)]] :=
  flood_dedup_idempotent ⟨5, [1, 2], []⟩ ⟨7, 9, [(9, NodeType.Client), (1, NodeType.Drone)]⟩
    1 NodeType.Drone (by decide) (by decide) (by decide) (by decide)

/-- C1 counterexample: with the cumulative counter at 31 (past the bound 30),
the Dropped branch of `process_packet/mod.rs` performs a random-path resend
and never forces a re-flood, contradicting the claimed 30-threshold
behavior. -/
theorem dropped_nack_no_reflood_at_31 :
    process_nack_dropped_pp (some (exPacket, 31)) [⟨[1, 3, 2], 1⟩] 0 =
      Except.ok
        [RecoveryEvent.cacheInsert ⟨⟨[1, 3, 2], 1⟩, 1, PacketType.msgFragment exFragment⟩,
          RecoveryEvent.resend ⟨⟨[1, 3, 2], 1⟩, 1, PacketType.msgFragment exFragment⟩] ∧
      RecoveryEvent.flood ∉
        [RecoveryEvent.cacheInsert
            (⟨⟨[1, 3, 2], 1⟩, 1, PacketType.msgFragment exFragment⟩ : Packet),
          RecoveryEvent.resend ⟨⟨[1, 3, 2], 1⟩, 1, PacketType.msgFragment exFragment⟩] :=
  ⟨rfl, by decide⟩

/-- C1 amended: the Dropped recovery of `process_packet/mod.rs` resends the
packet unchanged while the counter is below 3; from 3 on it resends with the
header drawn at the random index from the router's list (not necessarily a
different path); and no counter value ever triggers a re-flood in this
handler. -/
theorem dropped_nack_policy_pp (p : Packet) (n : Nat)
    (headers : List SourceRoutingHeader) (idx : Nat)
    (hidx : idx < headers.length) (hhops : p.routing_header.hops ≠ []) :
    (n < 3 → process_nack_dropped_pp (some (p, n)) headers idx =
        Except.ok [RecoveryEvent.cacheInsert p, RecoveryEvent.resend p]) ∧
    (3 ≤ n → ∃ h, headers[idx]? = some h ∧
        process_nack_dropped_pp (some (p, n)) headers idx =
          Except.ok [RecoveryEvent.cacheInsert { p with routing_header := h },
            RecoveryEvent.resend { p with routing_header := h }]) ∧
    (∀ evs, process_nack_dropped_pp (some (p, n)) headers idx = Except.ok evs →
        RecoveryEvent.flood ∉ evs) := by
  obtain ⟨d, hd⟩ := exists_getLast?_of_ne_nil p.routing_header.hops hhops
  have h0 : ¬ headers.length = 0 := by omega
  have hg : headers[idx]? = some headers[idx] := List.getElem?_eq_getElem hidx
  set hdr := headers[idx] with hdef
  refine ⟨?_, ?_, ?_⟩
  · intro hn
    have h3 : ¬ 3 ≤ n := by omega
    simp [process_nack_dropped_pp, h3]
  · intro h3
    exact ⟨hdr, hg, by simp [process_nack_dropped_pp, h3, hd, h0, hg]⟩
  · intro evs hevs
    by_cases h3 : 3 ≤ n
    · simp [process_nack_dropped_pp, h3, hd, h0, hg] at hevs
      subst hevs
      simp
    · simp [process_nack_dropped_pp, h3] at hevs
      subst hevs
      simp

/-- Witness for `dropped_nack_policy_pp` with the counter at 2. -/
theorem dropped_nack_policy_pp_witness :
    process_nack_dropped_pp (some (exPacket, 2)) [⟨[1, 3, 2], 1⟩] 0 =
      Except.ok [RecoveryEvent.cacheInsert exPacket, RecoveryEvent.resend exPacket] :=
  (dropped_nack_policy_pp exPacket 2 [⟨[1, 3, 2], 1⟩] 0 (by decide) (by decide)).1 (by decide)

/-- C8 counterexample: the UnexpectedRecipient branch of
`handle_packet/mod.rs` with a failed reroute removes the pending packet and
emits nothing at all: no resend, no cache insertion and no controller event,
so the packet is dropped silently. -/
theorem unexpected_recipient_silent_drop :
    process_nack_unexpected_hp 4 (some exPacket) none =
      Except.ok [RecoveryEvent.droppedFragment 4] := rfl

/-- C8 amended: when no new routing header can be obtained, the ErrorInRouting
and Dropped branches resend the original packet unchanged on its stored
header (no controller escalation), while the UnexpectedRecipient branch drops
the taken packet silently. -/
theorem nack_reroute_failure_behavior (u s : Nat) (p : Packet) (n : Nat)
    (hhops : p.routing_header.hops ≠ []) :
    process_nack_error_in_routing_hp u (some p) none =
      Except.ok [RecoveryEvent.droppedFragment u, RecoveryEvent.droneCrashed u,
        RecoveryEvent.resend p] ∧
    process_nack_dropped_hp s (some (p, n)) none =
      Except.ok (RecoveryEvent.droppedFragment s ::
        ((if 30 < n then [RecoveryEvent.flood] else []) ++ [RecoveryEvent.resend p])) ∧
    process_nack_unexpected_hp u (some p) none =
      Except.ok [RecoveryEvent.droppedFragment u] := by
  obtain ⟨d, hd⟩ := exists_getLast?_of_ne_nil p.routing_header.hops hhops
  refine ⟨?_, ?_, ?_⟩ <;>
    simp [process_nack_error_in_routing_hp, process_nack_dropped_hp,
      process_nack_unexpected_hp, hd]

/-- Witness for `nack_reroute_failure_behavior` at a concrete packet with the
counter at 31. -/
theorem nack_reroute_failure_behavior_witness :
    exPacket.routing_header.hops ≠ [] ∧
      (process_nack_error_in_routing_hp 4 (some exPacket) none =
        Except.ok [RecoveryEvent.droppedFragment 4, RecoveryEvent.droneCrashed 4,
          RecoveryEvent.resend exPacket] ∧
      process_nack_dropped_hp 2 (some (exPacket, 31)) none =
        Except.ok (RecoveryEvent.droppedFragment 2 ::
          ((if 30 < 31 then [RecoveryEvent.flood] else []) ++
            [RecoveryEvent.resend exPacket])) ∧
      process_nack_unexpected_hp 4 (some exPacket) none =
        Except.ok [RecoveryEvent.droppedFragment 4]) :=
  ⟨by decide, nack_reroute_failure_behavior 4 2 exPacket 31 (by decide)⟩

/-- Unfolding lemma for `dfs`. -/
theorem dfs_eq (t : NetworkTopology) (dst fuel current : Nat)
    (visited current_path : List Nat) :
    dfs t dst fuel current visited current_path =
      if current = dst then [current_path]
      else
        match fuel with
        | 0 => []
        | fuel' + 1 =>
          match lookupKV current t.nodes with
          | none => []
          | some node =>
              (node.neighbors.map (fun neighbor =>
                if neighbor ∈ current :: visited then []
                else dfs t dst fuel' neighbor (current :: visited)
                  (current_path ++ [neighbor]))).flatten := by
  cases fuel <;> rfl

/-- Soundness of the DFS: every returned path extends the accumulator by a
`DfsSuffix`. -/
theorem dfs_sound (t : NetworkTopology) (dst : Nat) :
    ∀ (fuel current : Nat) (visited current_path q : List Nat),
      q ∈ dfs t dst fuel current visited current_path →
      ∃ rest, q = current_path ++ rest ∧ DfsSuffix t dst current visited rest := by
  intro fuel
  induction fuel with
  | zero =>
      intro current visited current_path q hq
      rw [dfs_eq] at hq
      by_cases h : current = dst
      · rw [if_pos h] at hq
        simp only [List.mem_singleton] at hq
        refine ⟨[], by simp [hq], ?_⟩
        subst h
        exact DfsSuffix.done visited
      · rw [if_neg h] at hq
        simp at hq
  | succ fuel ih =>
      intro current visited current_path q hq
      rw [dfs_eq] at hq
      by_cases h : current = dst
      · rw [if_pos h] at hq
        simp only [List.mem_singleton] at hq
        refine ⟨[], by simp [hq], ?_⟩
        subst h
        exact DfsSuffix.done visited
      · rw [if_neg h] at hq
        cases hn : lookupKV current t.nodes with
        | none => rw [hn] at hq; simp at hq
        | some node =>
            rw [hn] at hq
            rw [List.mem_flatten] at hq
            obtain ⟨l, hl, hql⟩ := hq
            rw [List.mem_map] at hl
            obtain ⟨nb, hnb, rfl⟩ := hl
            by_cases hv : nb ∈ current :: visited
            · rw [if_pos hv] at hql
              simp at hql
            · rw [if_neg hv] at hql
              obtain ⟨rest', hq', hsfx⟩ := ih nb (current :: visited) (current_path ++ [nb]) q hql
              refine ⟨nb :: rest', by simp [hq'], ?_⟩
              exact DfsSuffix.step current visited nb rest' node h hn hnb hv hsfx

/-- Completeness of the DFS, given fuel at least the suffix length. -/
theorem dfs_complete (t : NetworkTopology) (dst : Nat)
    {current : Nat} {visited rest : List Nat}
    (hsfx : DfsSuffix t dst current visited rest) :
    ∀ (fuel : Nat), rest.length ≤ fuel →
      ∀ current_path, current_path ++ rest ∈ dfs t dst fuel current visited current_path := by
  induction hsfx with
  | done visited =>
      intro fuel hf current_path
      rw [dfs_eq, if_pos rfl]
      simp
  | step current visited nb rest node hne hlook hnb hnv hrec ih =>
      intro fuel hf current_path
      cases fuel with
      | zero => simp at hf
      | succ fuel' =>
          rw [dfs_eq, if_neg hne, hlook]
          rw [List.mem_flatten]
          refine ⟨if nb ∈ current :: visited then []
              else dfs t dst fuel' nb (current :: visited) (current_path ++ [nb]),
            List.mem_map.mpr ⟨nb, hnb, rfl⟩, ?_⟩
          rw [if_neg hnv]
          have heq : current_path ++ nb :: rest = (current_path ++ [nb]) ++ rest := by simp
          rw [heq]
          exact ih fuel' (by simp at hf; omega) (current_path ++ [nb])

/-- Keys looked up successfully belong to the key list. -/
theorem mem_map_fst_of_lookupKV {α β : Type} [DecidableEq α] :
    ∀ (l : List (α × β)) (a : α) (v : β), lookupKV a l = some v → a ∈ l.map Prod.fst := by
  intro l
  induction l with
  | nil => intro a v h; cases h
  | cons e rest ih =>
      intro a v h
      obtain ⟨k, b⟩ := e
      by_cases hk : k = a
      · subst hk; simp
      · rw [lookupKV_cons, if_neg hk] at h
        simp [ih a v h]

/-- A `DfsSuffix` visits only fresh map keys, so its length is bounded by the
number of keys outside the visited set. -/
theorem dfsSuffix_length_le (t : NetworkTopology) (dst : Nat) :
    ∀ {current : Nat} {visited rest : List Nat},
      DfsSuffix t dst current visited rest → current ∉ visited →
      rest.length ≤ (keyFinset t \ visited.toFinset).card := by
  intro current visited rest hsfx
  induction hsfx with
  | done visited => intro _; simp
  | step current visited nb rest node hne hlook hnb hnv hrec ih =>
      intro hcv
      have hnbv : nb ∉ current :: visited := hnv
      have hlen : rest.length ≤ (keyFinset t \ (current :: visited).toFinset).card := ih hnbv
      have hck : current ∈ keyFinset t := by
        unfold keyFinset
        rw [List.mem_toFinset]
        exact mem_map_fst_of_lookupKV t.nodes current node hlook
      have hsub : keyFinset t \ (current :: visited).toFinset ⊂ keyFinset t \ visited.toFinset := by
        rw [List.toFinset_cons]
        refine (Finset.ssubset_iff_of_subset
          (Finset.sdiff_subset_sdiff (le_refl _) (Finset.subset_insert _ _))).mpr ?_
        refine ⟨current, ?_, ?_⟩
        · rw [Finset.mem_sdiff]
          exact ⟨hck, by rw [List.mem_toFinset] at *; exact fun hc => hcv (by simpa using hc)⟩
        · rw [Finset.mem_sdiff]
          intro hmem
          exact hmem.2 (Finset.mem_insert_self _ _)
      have hcard := Finset.card_lt_card hsub
      simp only [List.length_cons]
      omega

/-- The node list of a `DfsSuffix` ends at the destination. -/
theorem dfsSuffix_getLast (t : NetworkTopology) (dst : Nat) :
    ∀ {current : Nat} {visited rest : List Nat},
      DfsSuffix t dst current visited rest → (current :: rest).getLast? = some dst := by
  intro current visited rest hsfx
  induction hsfx with
  | done visited => rfl
  | step current visited nb rest node hne hlook hnb hnv hrec ih =>
      rw [List.getLast?_cons_cons]
      exact ih

/-- The node list of a `DfsSuffix` follows the adjacency relation. -/
theorem dfsSuffix_chain (t : NetworkTopology) (dst : Nat) :
    ∀ {current : Nat} {visited rest : List Nat},
      DfsSuffix t dst current visited rest → List.Chain' (adjacent t) (current :: rest) := by
  intro current visited rest hsfx
  induction hsfx with
  | done visited => exact List.chain'_singleton _
  | step current visited nb rest node hne hlook hnb hnv hrec ih =>
      exact List.chain'_cons.mpr ⟨⟨node, hlook, hnb⟩, ih⟩

/-- The node list of a `DfsSuffix` avoids the visited set and repeats no
node. -/
theorem dfsSuffix_nodup (t : NetworkTopology) (dst : Nat) :
    ∀ {current : Nat} {visited rest : List Nat},
      DfsSuffix t dst current visited rest →
      (∀ x ∈ rest, x ∉ visited ∧ x ≠ current) ∧ (current :: rest).Nodup := by
  intro current visited rest hsfx
  induction hsfx with
  | done visited =>
      exact ⟨by intro x hx; simp at hx, List.nodup_singleton _⟩
  | step current visited nb rest node hne hlook hnb hnv hrec ih =>
      have hnbv : nb ∉ visited ∧ nb ≠ current := by
        constructor
        · intro hx; exact hnv (List.mem_cons_of_mem _ hx)
        · intro hx; exact hnv (hx ▸ List.mem_cons_self _ _)
      constructor
      · intro x hx
        rcases List.mem_cons.mp hx with rfl | hx'
        · exact hnbv
        · have h2 := (ih.1 x hx').1
          exact ⟨fun hv => h2 (List.mem_cons_of_mem _ hv), fun hc => h2 (hc ▸ List.mem_cons_self _ _)⟩
      · rw [List.nodup_cons]
        refine ⟨?_, ih.2⟩
        intro hc
        rcases List.mem_cons.mp hc with hc' | hc'
        · exact hnbv.2 hc'.symm
        · exact (ih.1 current hc').1 (List.mem_cons_self _ _)

/-- Conversely, every simple path whose nodes avoid the visited set is a
`DfsSuffix`. -/
theorem dfsSuffix_of_path (t : NetworkTopology) (dst : Nat) :
    ∀ (rest : List Nat) (current : Nat) (visited : List Nat),
      List.Chain' (adjacent t) (current :: rest) →
      (current :: rest).getLast? = some dst →
      (current :: rest).Nodup →
      (∀ x ∈ current :: rest, x ∉ visited) →
      DfsSuffix t dst current visited rest := by
  intro rest
  induction rest with
  | nil =>
      intro current visited _ hlast _ _
      have : current = dst := by simpa using hlast
      subst this
      exact DfsSuffix.done visited
  | cons nb rest' ih =>
      intro current visited hchain hlast hnodup hav
      have hcn : current ∉ nb :: rest' := (List.nodup_cons.mp hnodup).1
      have hlast' : (nb :: rest').getLast? = some dst := by
        rw [List.getLast?_cons_cons] at hlast
        exact hlast
      have hdst_mem : dst ∈ nb :: rest' := by
        obtain ⟨hne2, heq⟩ :=
          List.mem_getLast?_eq_getLast (l := nb :: rest') (x := dst)
            (Option.mem_def.mpr hlast')
        rw [heq]
        exact List.getLast_mem hne2
      have hne : current ≠ dst := fun h => hcn (h ▸ hdst_mem)
      obtain ⟨hadj, hchain'⟩ := List.chain'_cons.mp hchain
      obtain ⟨node, hlook, hnb⟩ := hadj
      have hnv : nb ∉ current :: visited := by
        intro hmem
        rcases List.mem_cons.mp hmem with hc | hc
        · exact hcn (hc ▸ List.mem_cons_self _ _)
        · exact hav nb (List.mem_cons_of_mem _ (List.mem_cons_self _ _)) hc
      refine DfsSuffix.step current visited nb rest' node hne hlook hnb hnv ?_
      apply ih nb (current :: visited) hchain' hlast' (List.nodup_cons.mp hnodup).2
      intro x hx hmem
      rcases List.mem_cons.mp hmem with rfl | hc
      · exact hcn hx
      · exact hav x (List.mem_cons_of_mem _ hx) hc

/-- C5: `find_paths_to` returns exactly the simple paths: a list of nodes is
returned if and only if it is a loop-free path from `src` to `dst` along the
recorded adjacency (hence the result is empty exactly when no such path
exists). -/
theorem find_paths_to_iff_simple_path (t : NetworkTopology) (src dst : Nat) (p : List Nat) :
    p ∈ t.find_paths_to src dst ↔ IsSimplePath t src dst p := by
  constructor
  · intro hp
    obtain ⟨rest, rfl, hsfx⟩ :=
      dfs_sound t dst (t.nodes.length + 1) src [] [src] p hp
    refine ⟨by simp, ?_, ?_, ?_⟩
    · simpa using dfsSuffix_getLast t dst hsfx
    · simpa using dfsSuffix_chain t dst hsfx
    · simpa using (dfsSuffix_nodup t dst hsfx).2
  · rintro ⟨hhead, hlast, hchain, hnodup⟩
    cases p with
    | nil => simp at hhead
    | cons a rest =>
        have ha : a = src := by simpa using hhead
        subst ha
        have hsfx : DfsSuffix t dst a [] rest :=
          dfsSuffix_of_path t dst rest a [] hchain hlast hnodup (by simp)
        have hbound : rest.length ≤ t.nodes.length := by
          have h1 := dfsSuffix_length_le t dst hsfx (by simp)
          simp only [List.toFinset_nil, Finset.sdiff_empty] at h1
          have h2 : (keyFinset t).card ≤ (t.nodes.map Prod.fst).length :=
            List.toFinset_card_le _
          simp only [List.length_map] at h2
          omega
        have hmem := dfs_complete t dst hsfx (t.nodes.length + 1) (by omega) [a]
        simpa [NetworkTopology.find_paths_to] using hmem

/-- Payload length is covered by `numChunks` many chunks. -/
theorem le_numChunks_mul (data : List Nat) :
    data.length ≤ numChunks data * FRAGMENT_DSIZE := by
  unfold numChunks FRAGMENT_DSIZE
  have h1 := Nat.div_add_mod (data.length + 128 - 1) 128
  have h2 : (data.length + 128 - 1) % 128 < 128 := Nat.mod_lt _ (by omega)
  omega

/-- Nonempty payloads need at least one chunk. -/
theorem numChunks_pos (data : List Nat) (h : data ≠ []) : 0 < numChunks data := by
  unfold numChunks FRAGMENT_DSIZE
  have hlen : 0 < data.length := List.length_pos.mpr h
  have h1 := Nat.div_add_mod (data.length + 128 - 1) 128
  have h2 : (data.length + 128 - 1) % 128 < 128 := Nat.mod_lt _ (by omega)
  omega

/-- Chunks of the tail are shifted chunks of the whole. -/
theorem chunk_succ (data : List Nat) (i : Nat) :
    chunk data (i + 1) = chunk (data.drop FRAGMENT_DSIZE) i := by
  unfold chunk
  rw [List.drop_drop]
  congr 2
  unfold FRAGMENT_DSIZE
  ring

/-- Concatenating all chunks restores the payload. -/
theorem join_chunks : ∀ (n : Nat) (data : List Nat),
    data.length ≤ n * FRAGMENT_DSIZE → ((List.range n).map (chunk data)).flatten = data := by
  intro n
  induction n with
  | zero =>
      intro data h
      have hd : data = [] := List.eq_nil_of_length_eq_zero (by omega)
      subst hd
      simp
  | succ n ih =>
      intro data h
      rw [List.range_succ_eq_map, List.map_cons, List.map_map]
      have hmap : (List.range n).map (chunk data ∘ Nat.succ) =
          (List.range n).map (chunk (data.drop FRAGMENT_DSIZE)) := by
        apply List.map_congr_left
        intro i _
        exact chunk_succ data i
      rw [hmap]
      simp only [List.flatten_cons]
      have h0 : chunk data 0 = data.take FRAGMENT_DSIZE := by simp [chunk]
      rw [h0, ih (data.drop FRAGMENT_DSIZE)
        (by
          rw [List.length_drop]
          have : (n + 1) * FRAGMENT_DSIZE = n * FRAGMENT_DSIZE + FRAGMENT_DSIZE := by ring
          omega)]
      exact List.take_append_drop _ _

/-- Shape of every produced fragment. -/
theorem frag_mem_spec (data : List Nat) (f : Fragment) (h : f ∈ fragmentData data) :
    f.total_n_fragments = numChunks data ∧ f.fragment_index < numChunks data ∧
      f.data = chunk data f.fragment_index := by
  unfold fragmentData at h
  rw [List.mem_map] at h
  obtain ⟨i, hi, rfl⟩ := h
  rw [List.mem_range] at hi
  exact ⟨rfl, hi, rfl⟩

/-- The fragment with a given in-range index exists. -/
theorem canonical_mem (data : List Nat) (i : Nat) (hi : i < numChunks data) :
    (⟨i, numChunks data, chunk data i⟩ : Fragment) ∈ fragmentData data := by
  unfold fragmentData
  exact List.mem_map.mpr ⟨i, List.mem_range.mpr hi, rfl⟩

/-- The produced fragment indices are exactly 0..total-1. -/
theorem map_index_fragmentData (data : List Nat) :
    (fragmentData data).map (fun f => f.fragment_index) = List.range (numChunks data) := by
  unfold fragmentData
  rw [List.map_map]
  exact List.map_id _

/-- Reassembling any permutation of the produced fragment set restores the
payload. -/
theorem assemble_perm (data : List Nat) (buf : List Fragment)
    (h : buf.Perm (fragmentData data)) :
    assembleContent (numChunks data) buf = data := by
  have hfind : ∀ i, i < numChunks data →
      buf.find? (fun f => f.fragment_index == i) =
        some ⟨i, numChunks data, chunk data i⟩ := by
    intro i hi
    have hmem : (⟨i, numChunks data, chunk data i⟩ : Fragment) ∈ buf :=
      h.mem_iff.mpr (canonical_mem data i hi)
    cases hf : buf.find? (fun f => f.fragment_index == i) with
    | none =>
        have hnone := List.find?_eq_none.mp hf _ hmem
        simp at hnone
    | some f =>
        have hpf := List.find?_some hf
        have hfm : f ∈ buf := List.mem_of_find?_eq_some hf
        have hfi : f.fragment_index = i := by simpa using hpf
        obtain ⟨ht, hlt, hdata⟩ := frag_mem_spec data f (h.mem_iff.mp hfm)
        have hfeq : f = ⟨i, numChunks data, chunk data i⟩ := by
          cases f
          simp_all
        rw [hfeq]
  unfold assembleContent
  have hcongr : (List.range (numChunks data)).map (fun i =>
      match buf.find? (fun f => f.fragment_index == i) with
      | some f => f.data
      | none => []) = (List.range (numChunks data)).map (chunk data) := by
    apply List.map_congr_left
    intro i hi
    rw [List.mem_range] at hi
    rw [hfind i hi]
  rw [hcongr]
  exact join_chunks (numChunks data) data (le_numChunks_mul data)

/-- Looking up the single-key buffer state yields the fed fragments. -/
theorem lookup_bufFor (session_id source : Nat) (fed : List Fragment) :
    (lookupKV (session_id, source) (bufFor session_id source fed).fragment_buffer).getD [] =
      fed := by
  cases fed <;> simp [bufFor, lookupKV]

/-- Inserting into the single-key buffer state overwrites the single key. -/
theorem insert_bufFor (session_id source : Nat) (fed b : List Fragment) :
    insertKV (session_id, source) b (bufFor session_id source fed).fragment_buffer =
      [((session_id, source), b)] := by
  cases fed <;> simp [bufFor, insertKV, eraseKV]

/-- Erasing the single key empties the buffer state. -/
theorem erase_bufFor (session_id source : Nat) (fed : List Fragment) :
    eraseKV (session_id, source) (bufFor session_id source fed).fragment_buffer = [] := by
  cases fed <;> simp [bufFor, eraseKV]

/-- One `on_fragment_received` step on the single-key buffer state. -/
theorem on_fragment_received_bufFor (session_id source : Nat) (fed : List Fragment)
    (f : Fragment) :
    on_fragment_received (bufFor session_id source fed) f session_id source =
      if (List.range f.total_n_fragments).all
          (fun i => (fed ++ [f]).any (fun g => g.fragment_index == i)) then
        (⟨[]⟩, some ⟨session_id, source,
          assembleContent f.total_n_fragments (fed ++ [f])⟩)
      else
        (bufFor session_id source (fed ++ [f]), none) := by
  unfold on_fragment_received
  dsimp only
  rw [lookup_bufFor]
  by_cases hc : (List.range f.total_n_fragments).all
      (fun i => (fed ++ [f]).any (fun g => g.fragment_index == i)) = true
  · rw [if_pos hc, if_pos hc, erase_bufFor]
  · rw [if_neg hc, if_neg hc, insert_bufFor]
    have hb : bufFor session_id source (fed ++ [f]) =
        ⟨[((session_id, source), fed ++ [f])]⟩ := by
      simp [bufFor]
    rw [hb]

/-- Feeding the remaining fragments of one produced set onto the already-fed
ones completes exactly at the last fragment, emitting the reassembled payload
once and freeing the buffer. -/
theorem feed_aux (data : List Nat) (session_id source : Nat) :
    ∀ (rem fed : List Fragment), (fed ++ rem).Perm (fragmentData data) → rem ≠ [] →
      feedAll session_id source (bufFor session_id source fed) rem =
        (⟨[]⟩, [⟨session_id, source, data⟩]) := by
  intro rem
  induction rem with
  | nil => intro fed _ hne; exact absurd rfl hne
  | cons f rem' ih =>
      intro fed hperm _
      have hfmem : f ∈ fragmentData data := hperm.mem_iff.mp (by simp)
      have htot : f.total_n_fragments = numChunks data := (frag_mem_spec data f hfmem).1
      cases rem' with
      | nil =>
          have hperm2 : (fed ++ [f]).Perm (fragmentData data) := by simpa using hperm
          have hcond : ((List.range f.total_n_fragments).all
              (fun i => (fed ++ [f]).any (fun g => g.fragment_index == i))) = true := by
            rw [htot, List.all_eq_true]
            intro i hi
            rw [List.mem_range] at hi
            rw [List.any_eq_true]
            exact ⟨⟨i, numChunks data, chunk data i⟩,
              hperm2.mem_iff.mpr (canonical_mem data i hi), by simp⟩
          show feedAll session_id source (bufFor session_id source fed) [f] = _
          simp only [feedAll, on_fragment_received_bufFor, hcond, if_true]
          rw [htot, assemble_perm data (fed ++ [f]) hperm2]
          simp
      | cons g rem'' =>
          have hgmem : g ∈ fragmentData data := hperm.mem_iff.mp (by simp)
          have hglt : g.fragment_index < numChunks data := (frag_mem_spec data g hgmem).2.1
          have hnodup : ((fed ++ f :: g :: rem'').map (fun x => x.fragment_index)).Nodup := by
            have h2 := hperm.map (fun x => x.fragment_index)
            rw [map_index_fragmentData] at h2
            exact h2.nodup_iff.mpr (List.nodup_range _)
          have hdisj : ∀ x ∈ fed ++ [f], x.fragment_index ≠ g.fragment_index := by
            intro x hx hxg
            have hre : fed ++ f :: g :: rem'' = (fed ++ [f]) ++ (g :: rem'') := by simp
            rw [hre, List.map_append, List.nodup_append] at hnodup
            exact hnodup.2.2 (List.mem_map.mpr ⟨x, hx, rfl⟩)
              (by rw [hxg]; exact List.mem_map.mpr ⟨g, by simp, rfl⟩)
          have hcond : ((List.range f.total_n_fragments).all
              (fun i => (fed ++ [f]).any (fun g' => g'.fragment_index == i))) = false := by
            rw [htot]
            by_contra hcontra
            rw [Bool.not_eq_false, List.all_eq_true] at hcontra
            have hany := hcontra g.fragment_index (List.mem_range.mpr hglt)
            rw [List.any_eq_true] at hany
            obtain ⟨x, hx, hxi⟩ := hany
            exact hdisj x hx (by simpa using hxi)
          show feedAll session_id source (bufFor session_id source fed) (f :: g :: rem'') = _
          simp only [feedAll, on_fragment_received_bufFor, hcond]
          simp only [Bool.false_eq_true, if_false, List.nil_append]
          exact ih (fed ++ [f]) (by simpa using hperm) (by simp)

/-- C4 amended (spec-modelled): feeding every fragment of `fragment(M)`, in
any order, through `on_fragment_received` for one (session_id, source)
reconstructs the payload exactly once and consumes the buffer. -/
theorem fragment_roundtrip_exactly_once (data : List Nat) (session_id source : Nat)
    (perm : List Fragment) (hne : data ≠ []) (hperm : perm.Perm (fragmentData data)) :
    feedAll session_id source ⟨[]⟩ perm =
      (⟨[]⟩, [⟨session_id, source, data⟩]) := by
  have hpos : 0 < numChunks data := numChunks_pos data hne
  have hfrag_ne : fragmentData data ≠ [] := by
    unfold fragmentData
    simp only [ne_eq, List.map_eq_nil_iff, List.range_eq_nil]
    omega
  have hrem_ne : perm ≠ [] := by
    intro h
    subst h
    exact hfrag_ne hperm.symm.eq_nil
  have hres := feed_aux data session_id source perm [] (by simpa using hperm) hrem_ne
  have hbuf : bufFor session_id source [] = (⟨[]⟩ : AssemblerState) := by simp [bufFor]
  rw [hbuf] at hres
  exact hres

/-- Witness for `fragment_roundtrip_exactly_once` on a concrete payload fed in
reverse order is not available for a one-chunk payload, so the produced order
itself serves as the permutation. -/
theorem fragment_roundtrip_exactly_once_witness :
    ([1, 2, 3] : List Nat) ≠ [] ∧
      feedAll 0 7 ⟨[]⟩ (fragmentData [1, 2, 3]) = (⟨[]⟩, [⟨0, 7, [1, 2, 3]⟩]) :=
  ⟨by decide, fragment_roundtrip_exactly_once [1, 2, 3] 0 7 (fragmentData [1, 2, 3])
    (by decide) (List.Perm.refl _)⟩

/-- C4 counterexample: after the complete set has been fed and consumed, the
buffer key is free again, so feeding the same complete set a second time
re-assembles and re-emits a second (equal) Message, instead of staying
silent as the claim demands. -/
theorem refeed_complete_set_reemits :
    (feedAll 0 0 ⟨[]⟩ (fragmentData [1, 2] ++ fragmentData [1, 2])).2 =
      [⟨0, 0, [1, 2]⟩, ⟨0, 0, [1, 2]⟩] := by
  rfl

/-- C3: concrete run in which the ErrorInRouting recovery of `chat_client.rs`
panics.  Client 1 knows the chain 1 - 3 - 2, fragment (0, 0) is pending on
header [1, 3, 2], and a Nack names node 3 unreachable: every known path to 2
contains 3, so the code clears the graph, floods (asynchronously, so the
graph is still empty) and then indexes `new_paths[0]` into an empty vector,
an out-of-bounds panic that kills the node's main loop. -/
theorem error_in_routing_panics_on_no_path :
    process_nack_error_in_routing_cc 1
        ⟨[(1, ⟨1, NodeType.Client, [3]⟩), (3, ⟨3, NodeType.Drone, [1, 2]⟩),
          (2, ⟨2, NodeType.Server, [3]⟩)]⟩
        (PacketCache.new.insert ⟨⟨[1, 3, 2], 1⟩, 0, PacketType.msgFragment ⟨0, 1, [9]⟩⟩)
        0 0 3 =
      Except.error "index out of bounds: new_paths[0] on empty Vec" := rfl

end RustasticChat
